import Mathlib

/-!
Verification of the semantic field-mapping and deck-analysis engine of the
anki-kashikoi-mcp repository (`FieldMapper` in `src/services/field-mapper.ts`
and `DeckAnalyzer` in `src/services/deck-analyzer.ts`).

Modelling conventions, chosen to mirror the TypeScript source exactly:

* JavaScript objects used as string-keyed records (`Record<string, T>`) are
  modelled as association lists `List (String × T)` in insertion order;
  `recGet`/`recSet`/`recModify` mirror property read, property write (update
  in place when the key exists, append otherwise) and in-place update.
* JavaScript string truthiness (`if (s)`) is the test `s ≠ ""`;
  `undefined` is `Option.none`.
* Confidence scores are measured in tenths, as natural numbers: the source's
  float literals `1.0 / 0.8 / 0.6 / 0.5 / 0.3 / 0.2` become `10 / 8 / 6 / 5 /
  3 / 2`.  Every comparison the source performs on confidences is between
  members of this finite set of literals, and on those the IEEE-double order
  agrees with the rational order, so the scaling is exact.
* `toLowerCase`, `trim`, `includes`, `.length`, `substring(0, n)` and
  template-literal concatenation are modelled character-wise
  (`jsLower`, `jsTrim`, `jsIncludes`, `jsLen`, `jsTake`, `++`).
  Note that the template literals of the source spell `\\n`, i.e. the
  emitted separator is the two-character text backslash-`n`, not a line
  break; the embedding reproduces this faithfully.
-/

namespace AnkiKashikoi

/-- Character-wise lowercasing, modelling `String.prototype.toLowerCase`. -/
def jsLower (s : String) : String := ⟨s.data.map Char.toLower⟩

/-- The whitespace characters removed by `String.prototype.trim`. -/
def jsWhitespace (c : Char) : Bool := c == ' ' || c == '\t' || c == '\n' || c == '\r'

/-- Modelling `String.prototype.trim`. -/
def jsTrim (s : String) : String :=
  ⟨((s.data.dropWhile jsWhitespace).reverse.dropWhile jsWhitespace).reverse⟩

/-- Predicate `leadsWith n h`: holds when the character list `n` starts the list `h`. -/
def leadsWith : List Char → List Char → Bool
  | [], _ => true
  | _ :: _, [] => false
  | a :: as, b :: bs => a == b && leadsWith as bs

/-- Predicate `charsInfix n h`: holds when `n` occurs contiguously inside `h`. -/
def charsInfix : List Char → List Char → Bool
  | n, [] => n.isEmpty
  | n, c :: t => leadsWith n (c :: t) || charsInfix n t

/-- Modelling `hay.includes(needle)` on JavaScript strings. -/
def jsIncludes (hay needle : String) : Bool := charsInfix needle.data hay.data

/-- Modelling `s.length` (character count). -/
def jsLen (s : String) : Nat := s.data.length

/-- Modelling `s.substring(0, n)`. -/
def jsTake (s : String) (n : Nat) : String := ⟨s.data.take n⟩

/-- JavaScript truthiness of a string-or-`undefined` value. -/
def optStrTruthy : Option String → Bool
  | none => false
  | some s => s != ""

/-- Property read on a string-keyed record: first entry with the key. -/
def recGet {α : Type} : List (String × α) → String → Option α
  | [], _ => none
  | (k, v) :: t, key => if k = key then some v else recGet t key

/-- Key-presence test on a string-keyed record. -/
def recHas {α : Type} (m : List (String × α)) (key : String) : Bool :=
  (recGet m key).isSome

/-- Property write: update the existing entry in place, else append. -/
def recSet {α : Type} : List (String × α) → String → α → List (String × α)
  | [], key, val => [(key, val)]
  | (k, v) :: t, key, val =>
    if k = key then (k, val) :: t else (k, v) :: recSet t key val

/-- In-place update of the value stored at a key, first occurrence only. -/
def recModify {α : Type} : List (String × α) → String → (α → α) → List (String × α)
  | [], _, _ => []
  | (k, v) :: t, key, f =>
    if k = key then (k, f v) :: t else (k, v) :: recModify t key f

/-- A semantic pattern of the field mapper: a label plus its keyword list
(`SemanticPattern` in `field-mapper.ts`). -/
structure SemanticPattern where
  semantic : String
  keywords : List String
deriving Repr, DecidableEq

/-- A record schema (`AnkiNoteType`): type name plus ordered field names. -/
structure AnkiNoteType where
  name : String
  fields : List String
deriving Repr, DecidableEq

/-- A ranked suggestion (`FieldMappingSuggestion`); confidence in tenths. -/
structure FieldMappingSuggestion where
  semantic : String
  field : String
  confidence : Nat
deriving Repr, DecidableEq

/-- The static pattern table of `FieldMapper`, in declared order. -/
def patterns : List SemanticPattern :=
  [ ⟨"primary", ["front", "question", "word", "term", "kanji", "表", "問題"]⟩,
    ⟨"secondary", ["back", "answer", "meaning", "definition", "裏", "答え"]⟩,
    ⟨"reading", ["reading", "pronunciation", "phonetic", "kana", "読み", "発音"]⟩,
    ⟨"example", ["example", "sentence", "usage", "context", "例文", "使用例"]⟩,
    ⟨"notes", ["notes", "memo", "hint", "extra", "remarks", "メモ", "ヒント"]⟩,
    ⟨"source", ["source", "reference", "origin", "出典", "参考"]⟩,
    ⟨"image", ["image", "picture", "photo", "visual", "画像", "写真"]⟩,
    ⟨"audio", ["audio", "sound", "voice", "音声"]⟩,
    ⟨"category", ["category", "type", "class", "group", "分類", "カテゴリ"]⟩,
    ⟨"difficulty", ["difficulty", "level", "grade", "難易度", "レベル"]⟩ ]

/-- The inner keyword loop of `findBestFieldMatch`: scans the keyword list,
accumulating the running confidence for one (already lowercased) field name.
An exact match sets the confidence to `10` (i.e. `1.0`) and stops the scan
(the source's `break`). -/
def keywordScan (fieldLower : String) : List String → Nat → Nat
  | [], confidence => confidence
  | keyword :: rest, confidence =>
    let keywordLower := jsLower keyword
    if fieldLower = keywordLower then 10
    else if jsIncludes fieldLower keywordLower && decide (jsLen keywordLower > 2) then
      keywordScan fieldLower rest (max confidence 8)
    else if jsIncludes keywordLower fieldLower && decide (jsLen fieldLower ≥ 4)
        && decide ((jsLen keywordLower : Int) - (jsLen fieldLower : Int) ≤ 3) then
      keywordScan fieldLower rest (max confidence 6)
    else keywordScan fieldLower rest confidence

/-- The outer field loop of `findBestFieldMatch`: keeps the best
(field, confidence) pair seen so far, skipping used fields and replacing the
running best only on a strictly higher confidence. -/
def bestLoop (keywords usedFields : List String) :
    List String → Option String × Nat → Option String × Nat
  | [], acc => acc
  | field :: rest, (bestField, bestConfidence) =>
    if usedFields.contains field then bestLoop keywords usedFields rest (bestField, bestConfidence)
    else
      let confidence := keywordScan (jsLower field) keywords 0
      if confidence > bestConfidence then bestLoop keywords usedFields rest (some field, confidence)
      else bestLoop keywords usedFields rest (bestField, bestConfidence)

/-- Source method `FieldMapper.findBestFieldMatch`. -/
def findBestFieldMatch (fields keywords usedFields : List String) : Option String × Nat :=
  bestLoop keywords usedFields fields (none, 0)

/-- Pass 1 body of `suggestMappings`: assign a pattern only on confidence
strictly above `8` (i.e. `0.8`); the `bestMatch.field &&` truthiness test of
the source excludes both `null` and the empty string. -/
def pass1Step (fields : List String) (st : List (String × String) × List String)
    (pattern : SemanticPattern) : List (String × String) × List String :=
  let (mappings, usedFields) := st
  match findBestFieldMatch fields pattern.keywords usedFields with
  | (some f, confidence) =>
    if f != "" && decide (confidence > 8) then
      (recSet mappings pattern.semantic f, usedFields ++ [f])
    else (mappings, usedFields)
  | (none, _) => (mappings, usedFields)

/-- Pass 2 body of `suggestMappings`: skip already-mapped patterns
(`if (mappings[pattern.semantic]) continue`, a truthiness test), then assign
on confidence strictly above `5` (i.e. `0.5`). -/
def pass2Step (fields : List String) (st : List (String × String) × List String)
    (pattern : SemanticPattern) : List (String × String) × List String :=
  let (mappings, usedFields) := st
  if optStrTruthy (recGet mappings pattern.semantic) then (mappings, usedFields)
  else
    match findBestFieldMatch fields pattern.keywords usedFields with
    | (some f, confidence) =>
      if f != "" && decide (confidence > 5) then
        (recSet mappings pattern.semantic f, usedFields ++ [f])
      else (mappings, usedFields)
    | (none, _) => (mappings, usedFields)

/-- Source method `FieldMapper.suggestMappings`: two passes over the pattern table, then the
fixed-index fallback that offers `fields[0]` to `primary` and `fields[1]` to
`secondary` when those labels are still unmapped and the fields unused. -/
def suggestMappings (noteType : AnkiNoteType) : List (String × String) :=
  let st1 := patterns.foldl (pass1Step noteType.fields) ([], [])
  let st2 := patterns.foldl (pass2Step noteType.fields) st1
  match noteType.fields with
  | [] => st2.1
  | f0 :: rest =>
    let st3 :=
      if !optStrTruthy (recGet st2.1 "primary") && !st2.2.contains f0 then
        (recSet st2.1 "primary" f0, st2.2 ++ [f0])
      else st2
    match rest with
    | [] => st3.1
    | f1 :: _ =>
      if !optStrTruthy (recGet st3.1 "secondary") && !st3.2.contains f1 then
        recSet st3.1 "secondary" f1
      else st3.1

/-- Loop body of `getSuggestionDetails`' single pass: record a suggestion
with the raw confidence whenever the matcher found a (truthy) field. -/
def detailsStep (fields : List String)
    (st : List FieldMappingSuggestion × List String) (pattern : SemanticPattern) :
    List FieldMappingSuggestion × List String :=
  let (suggestions, usedFields) := st
  match findBestFieldMatch fields pattern.keywords usedFields with
  | (some f, confidence) =>
    if f != "" then (suggestions ++ [⟨pattern.semantic, f, confidence⟩], usedFields ++ [f])
    else (suggestions, usedFields)
  | (none, _) => (suggestions, usedFields)

/-- The single pass of `getSuggestionDetails` over the pattern table. -/
def suggestionPass (noteType : AnkiNoteType) : List FieldMappingSuggestion × List String :=
  patterns.foldl (detailsStep noteType.fields) ([], [])

/-- Source method `FieldMapper.getSuggestionDetails`: the single pass, then the
first-unused-field fallback for `primary` and `secondary` at confidence `3`
(i.e. `0.3`).  `mappedSemantics` is computed once, before either fallback;
the source's `if (field)` truthiness test skips an empty-string field name. -/
def getSuggestionDetails (noteType : AnkiNoteType) : List FieldMappingSuggestion :=
  let suggestions := (suggestionPass noteType).1
  let usedFields := (suggestionPass noteType).2
  let mappedSemantics := suggestions.map (·.semantic)
  let st :=
    if !mappedSemantics.contains "primary" && decide (noteType.fields.length > 0) then
      match noteType.fields.find? (fun f => !usedFields.contains f) with
      | some field =>
        if field != "" then (suggestions ++ [⟨"primary", field, 3⟩], usedFields ++ [field])
        else (suggestions, usedFields)
      | none => (suggestions, usedFields)
    else (suggestions, usedFields)
  if !mappedSemantics.contains "secondary" && decide (noteType.fields.length > 1) then
    match noteType.fields.find? (fun f => !st.2.contains f) with
    | some field =>
      if field != "" then st.1 ++ [⟨"secondary", field, 3⟩]
      else st.1
    | none => st.1
  else st.1

/-- Loop of `validateMapping`: reject a target field that is not in the
schema or that an earlier entry already used. -/
def validateLoop (availableFields : List String) (usedFields : List String) :
    List (String × String) → Bool
  | [] => true
  | (_, field) :: rest =>
    if !availableFields.contains field then false
    else if usedFields.contains field then false
    else validateLoop availableFields (usedFields ++ [field]) rest

/-- Source method `FieldMapper.validateMapping`. -/
def validateMapping (noteType : AnkiNoteType) (mapping : List (String × String)) : Bool :=
  validateLoop noteType.fields [] mapping

/-- Loop body of `applyMapping` for one (semantic, content) entry.  Note the
merge separator of the source is the template literal `\\n`, that is the
two-character text backslash-`n`, not a line break. -/
def applyStep (mapping : List (String × String)) (result : List (String × String))
    (entry : String × String) : List (String × String) :=
  let (semantic, content) := entry
  match recGet mapping semantic with
  | some actualField =>
    if actualField != "" && content != "" && jsTrim content != "" then
      if optStrTruthy (recGet result actualField) then
        recModify result actualField (fun v => v ++ "\\n" ++ content)
      else recSet result actualField content
    else result
  | none => result

/-- Source method `FieldMapper.applyMapping`. -/
def applyMapping (mapping semanticContent : List (String × String)) : List (String × String) :=
  semanticContent.foldl (applyStep mapping) []

/-- The part of an `AnkiCard` the analyzer reads: its note-type name and its
(field name, field value) entries in object order. -/
structure AnkiCard where
  modelName : String
  fields : List (String × String)
deriving Repr, DecidableEq

/-- The external card store as the analyzer sees it (`AnkiConnectClient`):
an id lookup and a record fetch. -/
structure AnkiConnectClient where
  findCards : String → List Nat
  getCardsInfo : List Nat → List AnkiCard

/-- A call made to the external card store, recorded for the call trace. -/
inductive StoreCall where
  | findCards (query : String)
  | getCardsInfo (cardIds : List Nat)
deriving Repr, DecidableEq

/-- Source type `DeckAnalyzer`'s analysis result value object. -/
structure DeckAnalysisResult where
  deckName : String
  sampleSize : Nat
  primaryNoteType : String
  fieldAnalysis : List (String × String)
  suggestedMappings : List (String × String)
deriving Repr, DecidableEq

/-- Loop body of `getFieldSamples` for one (field name, value) entry: ensure
the field has a (possibly empty) sample list, then push the value truncated
to 50 characters unless it is blank. -/
def sampleStep (m : List (String × List String)) (entry : String × String) :
    List (String × List String) :=
  let (fieldName, value) := entry
  let m := if recHas m fieldName then m else m ++ [(fieldName, [])]
  if value != "" && jsTrim value != "" then
    recModify m fieldName
      (fun l => l ++ [if decide (jsLen value > 50) then jsTake value 50 else value])
  else m

/-- Source method `DeckAnalyzer.getFieldSamples`. -/
def getFieldSamples (cards : List AnkiCard) : List (String × List String) :=
  cards.foldl (fun m card => card.fields.foldl sampleStep m) []

/-- Modelling `samples.join(' ')`. -/
def joinSpace : List String → String
  | [] => ""
  | [s] => s
  | s :: rest => s ++ " " ++ joinSpace rest

/-- Helper for the `/\/.*\//` regex: after an opening slash, is there a
closing slash before any line break?  (JavaScript `.` does not match `\n`.) -/
def closeSlash : List Char → Bool
  | [] => false
  | c :: rest => if c = '/' then true else if c = '\n' then false else closeSlash rest

/-- Does `/\/.*\//.test s` hold: two slashes with no line break between. -/
def slashPattern : List Char → Bool
  | [] => false
  | c :: rest => (c == '/' && closeSlash rest) || slashPattern rest

/-- Source method `DeckAnalyzer.analyzeFieldContent`: the ordered rule cascade classifying
a field from its name and sampled content.  The source's local constants
`fieldLower` and `contentSample` are inlined. -/
def analyzeFieldContent (fieldName : String) (samples : List String) : String :=
  if jsIncludes (jsLower fieldName) "expression" || jsIncludes (jsLower fieldName) "pronunciation" then
    "English expressions or pronunciation"
  else if jsIncludes (jsLower fieldName) "phonetic" || jsIncludes (jsLower fieldName) "pronunciation" then
    "Pronunciation or phonetic information"
  else if jsIncludes (jsLower fieldName) "example" || jsIncludes (jsLower fieldName) "sentence" then
    "Usage examples or sample sentences"
  else if jsIncludes (jsLower fieldName) "meaning" || jsIncludes (jsLower fieldName) "translation" then
    "Meaning or translation"
  else if jsIncludes (jsLower fieldName) "explanation" || jsIncludes (jsLower fieldName) "description" then
    "Detailed explanation or description"
  else if jsIncludes (jsLower fieldName) "grammar" then
    "Grammar information"
  else if jsIncludes (jsLower fieldName) "synonym" || jsIncludes (jsLower fieldName) "related" then
    "Synonyms or related words"
  else if jsIncludes (jsLower fieldName) "collocation" then
    "Word collocations"
  else if slashPattern (jsLower (joinSpace samples)).data then
    "Likely pronunciation symbols"
  else if jsIncludes (jsLower (joinSpace samples)) "example:"
      || jsIncludes (jsLower (joinSpace samples)) "usage:" then
    "Examples or usage demonstrations"
  else if samples.any (fun s => decide (jsLen s > 100)) then
    "Long detailed explanations"
  else if samples.any (fun s => decide (jsLen s < 20)) then
    "Short words or phrases"
  else
    "General content (purpose unclear)"

/-- Source method `DeckAnalyzer.getPrimaryNoteType`: count note types, then keep the first
type (in entry order) whose count strictly exceeds the running maximum. -/
def getPrimaryNoteType (cards : List AnkiCard) : String :=
  let noteTypeCounts := cards.foldl
    (fun counts card => recSet counts card.modelName ((recGet counts card.modelName).getD 0 + 1))
    []
  (noteTypeCounts.foldl
    (fun acc e => if e.2 > acc.2 then (e.1, e.2) else acc)
    ("", 0)).1

/-- Source method `DeckAnalyzer.analyzeFields`: classify every field of the sample set. -/
def analyzeFields (fieldSamples : List (String × List String)) : List (String × String) :=
  fieldSamples.foldl
    (fun analysis e => recSet analysis e.1 (analyzeFieldContent e.1 e.2)) []

/-- Source method `DeckAnalyzer.analyzeDeck`, with the calls made to the external store
recorded as a trace.  A zero-id lookup fails with the collection-empty error
before the record fetch is ever issued. -/
def analyzeDeck (client : AnkiConnectClient) (deckName : String) (sampleSize : Nat) :
    Except String DeckAnalysisResult × List StoreCall :=
  let query := "deck:\"" ++ deckName ++ "\""
  let cardIds := client.findCards query
  if cardIds.length = 0 then
    (Except.error ("Deck \"" ++ deckName ++ "\" contains no cards"), [StoreCall.findCards query])
  else
    let actualSampleSize := min sampleSize cardIds.length
    let sampleCardIds := cardIds.take actualSampleSize
    let cardsInfo := client.getCardsInfo sampleCardIds
    let primaryNoteType := getPrimaryNoteType cardsInfo
    let fieldSamples := getFieldSamples cardsInfo
    let fieldAnalysis := analyzeFields fieldSamples
    let mockNoteType : AnkiNoteType := ⟨primaryNoteType, fieldSamples.map (·.1)⟩
    let suggestedMappings := suggestMappings mockNoteType
    (Except.ok ⟨deckName, actualSampleSize, primaryNoteType, fieldAnalysis, suggestedMappings⟩,
     [StoreCall.findCards query, StoreCall.getCardsInfo sampleCardIds])

/-- Source method `DeckAnalyzer.generateReport`.  Two faithfulness notes: the template
literals of the source spell `\\n`, so every separator is the two-character
text backslash-`n` rather than a line break, and the arrow of the mapping
lines is the source's three-character sequence U+00E2 U+2020 U+2019
(a mis-encoded arrow), not U+2192. -/
def generateReport (analysisResult : DeckAnalysisResult) : String :=
  let report := "=== Deck Analysis Report ===\\n\\n"
  let report := report ++ "Deck: " ++ analysisResult.deckName ++ "\\n"
  let report := report ++ "Sample size: " ++ toString analysisResult.sampleSize ++ "\\n"
  let report := report ++ "Primary note type: " ++ analysisResult.primaryNoteType ++ "\\n\\n"
  let report := report ++ "Field Analysis:\\n"
  let report := analysisResult.fieldAnalysis.foldl
    (fun r e => r ++ "- " ++ e.1 ++ ": " ++ e.2 ++ "\\n") report
  let report := report ++ "\\nSuggested Semantic Mappings:\\n"
  if analysisResult.suggestedMappings.length = 0 then
    report ++ "No semantic mappings suggested\\n"
  else
    analysisResult.suggestedMappings.foldl
      (fun r e => r ++ "- " ++ e.1 ++ " â†’ " ++ e.2 ++ "\\n") report

/-! ### Specification-side definitions

The remaining definitions are not translations of source code: they restate,
in direct recursion-free form, what the specification says the source-side
functions compute.  The claim theorems compare the two. -/

/-- Tier score of one (lowercased field, lowercased keyword) pair, per the
spec: `8` when the field contains a keyword of length above 2, `6` when the
keyword contains the field, the field has length at least 4, and the keyword
is at most 3 characters longer, else `0`. -/
def tierConf (fieldLower keywordLower : String) : Nat :=
  if jsIncludes fieldLower keywordLower && decide (jsLen keywordLower > 2) then 8
  else if jsIncludes keywordLower fieldLower && decide (jsLen fieldLower ≥ 4)
      && decide ((jsLen keywordLower : Int) - (jsLen fieldLower : Int) ≤ 3) then 6
  else 0

/-- Per-field confidence as the spec words it: `10` on exact case-insensitive
equality with some keyword, otherwise the maximum tier score over keywords. -/
def specFieldConfidence (field : String) (keywords : List String) : Nat :=
  if keywords.any (fun k => jsLower field == jsLower k) then 10
  else (keywords.map (fun k => tierConf (jsLower field) (jsLower k))).foldl max 0

/-- Best-match selection as the spec words it: scan fields in declared order,
skip used ones, keep the field with the strictly highest `specFieldConfidence`
(first-encountered wins ties), starting from no field at confidence `0`. -/
def bestMatchSpec (fields keywords usedFields : List String) : Option String × Nat :=
  fields.foldl
    (fun acc field =>
      if usedFields.contains field then acc
      else if specFieldConfidence field keywords > acc.2 then
        (some field, specFieldConfidence field keywords)
      else acc)
    (none, 0)

/-- Fallback of `getSuggestionDetails` as the (amended) spec words it: when
the pass produced no "primary" entry, append the first unused field, provided
it is a non-empty name, at confidence `3`; then the same rule for
"secondary". -/
def fallbackSuggestionsSpec (entries : List FieldMappingSuggestion)
    (used fields : List String) : List FieldMappingSuggestion :=
  let prim :=
    if (entries.map (·.semantic)).contains "primary" then []
    else
      match fields.find? (fun f => !used.contains f) with
      | some f => if f != "" then [⟨"primary", f, 3⟩] else []
      | none => []
  let used1 := used ++ prim.map (·.field)
  let sec :=
    if (entries.map (·.semantic)).contains "secondary" then []
    else
      match fields.find? (fun f => !used1.contains f) with
      | some f => if f != "" then [⟨"secondary", f, 3⟩] else []
      | none => []
  prim ++ sec

/-- Join a list of texts with the two-character separator backslash-`n`
(the text the source's `\\n` template literals denote). -/
def joinBackslashN : List String → String
  | [] => ""
  | t :: rest => rest.foldl (fun acc s => acc ++ "\\n" ++ s) t

/-- The (target field, text) pairs that the spec says contribute to
`applyMapping`: content entries, in iteration order, whose label is mapped to
a truthy field and whose text is neither empty nor whitespace-only. -/
def mappedContributions (mapping content : List (String × String)) : List (String × String) :=
  content.filterMap (fun e =>
    match recGet mapping e.1 with
    | some f => if f != "" && e.2 != "" && jsTrim e.2 != "" then some (f, e.2) else none
    | none => none)

/-- The texts contributed to one target field, in iteration order. -/
def contributedTexts (mapping content : List (String × String)) (f : String) : List String :=
  ((mappedContributions mapping content).filter (fun q => q.1 == f)).map Prod.snd

/-- The values the spec says `getFieldSamples` keeps for one field: every
declared value of that field across the sampled records in order, blank
values dropped, each value cut to its first 50 characters. -/
def keptSamples (entries : List (String × String)) (f : String) : List String :=
  ((entries.filter (fun e => e.1 == f)).map Prod.snd).filterMap
    (fun v => if jsTrim v != "" then some (jsTake v 50) else none)

/-- A store client whose id lookup always returns no ids. -/
def emptyClient : AnkiConnectClient := ⟨fun _ => [], fun _ => []⟩

/-- The invariant carried through `suggestMappings`' passes and fallback:
every mapped target is a schema field, no two labels share a target, and
every mapped target is marked used. -/
def MapperInv (fields : List String) (st : List (String × String) × List String) : Prop :=
  (∀ p ∈ st.1, p.2 ∈ fields) ∧ (st.1.map Prod.snd).Nodup ∧
    (∀ p ∈ st.1, st.2.contains p.2 = true)

/-- The analysis result used by the repository's own `generateReport` test
(`deck-analyzer.test.ts`). -/
def reportInput : DeckAnalysisResult :=
  ⟨"TestDeck", 3, "Basic",
   [("Front", "Short questions"), ("Back", "Brief answers")],
   [("primary", "Front"), ("secondary", "Back")]⟩

/-! ### General lemmas about records-as-association-lists -/

lemma contains_iff_mem (l : List String) (a : String) : l.contains a = true ↔ a ∈ l := by
  induction l with
  | nil => simp
  | cons h t ih => simp [List.contains] at ih ⊢

lemma recGet_append_of_some {α : Type} {m m' : List (String × α)} {f : String} {v : α}
    (h : recGet m f = some v) : recGet (m ++ m') f = some v := by
  induction m with
  | nil => simp [recGet] at h
  | cons p t ih =>
    obtain ⟨k, w⟩ := p
    simp only [recGet, List.cons_append] at h ⊢
    split at h <;> simp_all [recGet]

lemma recGet_append_of_none {α : Type} {m : List (String × α)} {f : String}
    (m' : List (String × α)) (h : recGet m f = none) :
    recGet (m ++ m') f = recGet m' f := by
  induction m with
  | nil => simp
  | cons p t ih =>
    obtain ⟨k, w⟩ := p
    simp only [recGet, List.cons_append] at h ⊢
    split at h <;> simp_all [recGet]

lemma recGet_recSet_self {α : Type} (m : List (String × α)) (k : String) (v : α) :
    recGet (recSet m k v) k = some v := by
  induction m with
  | nil => simp [recSet, recGet]
  | cons p t ih =>
    obtain ⟨k', w⟩ := p
    by_cases h : k' = k <;> simp [recSet, recGet, h, ih]

lemma recGet_recSet_ne {α : Type} (m : List (String × α)) {k k' : String} (v : α)
    (h : k' ≠ k) : recGet (recSet m k v) k' = recGet m k' := by
  induction m with
  | nil => simp [recSet, recGet, Ne.symm h]
  | cons p t ih =>
    obtain ⟨a, w⟩ := p
    by_cases ha : a = k
    · subst ha
      simp [recSet, recGet, h, Ne.symm h]
    · simp only [recSet, if_neg ha, recGet]
      split <;> simp [ih]

lemma recSet_of_absent {α : Type} {m : List (String × α)} {k : String} (v : α)
    (h : recGet m k = none) : recSet m k v = m ++ [(k, v)] := by
  induction m with
  | nil => simp [recSet]
  | cons p t ih =>
    obtain ⟨a, w⟩ := p
    simp only [recGet] at h
    split at h
    · simp at h
    · simp_all [recSet]

lemma recGet_recModify_self {α : Type} {m : List (String × α)} {k : String} {v : α}
    (g : α → α) (h : recGet m k = some v) :
    recGet (recModify m k g) k = some (g v) := by
  induction m with
  | nil => simp [recGet] at h
  | cons p t ih =>
    obtain ⟨a, w⟩ := p
    simp only [recGet] at h
    by_cases ha : a = k
    · simp only [recModify, if_pos ha, recGet, ha, if_pos rfl] at h ⊢
      simp at h
      simp [h]
    · simp only [recModify, if_neg ha, recGet, if_neg ha] at h ⊢
      exact ih h

lemma recGet_recModify_ne {α : Type} (m : List (String × α)) {k k' : String}
    (g : α → α) (h : k' ≠ k) : recGet (recModify m k g) k' = recGet m k' := by
  induction m with
  | nil => simp [recModify]
  | cons p t ih =>
    obtain ⟨a, w⟩ := p
    by_cases ha : a = k
    · subst ha
      simp [recModify, recGet, h, Ne.symm h]
    · simp only [recModify, if_neg ha, recGet]
      split <;> simp [ih]

lemma mem_recSet {α : Type} {m : List (String × α)} {k : String} {v : α}
    {q : String × α} (h : q ∈ recSet m k v) : q = (k, v) ∨ q ∈ m := by
  induction m with
  | nil => simp [recSet] at h; simp [h]
  | cons p t ih =>
    obtain ⟨a, w⟩ := p
    by_cases ha : a = k
    · subst ha
      simp only [recSet, if_pos rfl] at h
      rcases List.mem_cons.mp h with h | h
      · exact Or.inl h
      · exact Or.inr (List.mem_cons_of_mem _ h)
    · simp only [recSet, if_neg ha] at h
      rcases List.mem_cons.mp h with h | h
      · exact Or.inr (h ▸ List.mem_cons_self _ _)
      · rcases ih h with h | h
        · exact Or.inl h
        · exact Or.inr (List.mem_cons_of_mem _ h)

lemma mem_recModify {α : Type} {m : List (String × α)} {k : String} {g : α → α}
    {q : String × α} (h : q ∈ recModify m k g) :
    q ∈ m ∨ ∃ v, (k, v) ∈ m ∧ q = (k, g v) := by
  induction m with
  | nil => simp [recModify] at h
  | cons p t ih =>
    obtain ⟨a, w⟩ := p
    by_cases ha : a = k
    · subst ha
      simp only [recModify, if_pos rfl] at h
      rcases List.mem_cons.mp h with h | h
      · exact Or.inr ⟨w, List.mem_cons_self _ _, h⟩
      · exact Or.inl (List.mem_cons_of_mem _ h)
    · simp only [recModify, if_neg ha] at h
      rcases List.mem_cons.mp h with h | h
      · exact Or.inl (h ▸ List.mem_cons_self _ _)
      · rcases ih h with h | ⟨v, hv, hq⟩
        · exact Or.inl (List.mem_cons_of_mem _ h)
        · exact Or.inr ⟨v, List.mem_cons_of_mem _ hv, hq⟩

lemma recGet_eq_none_iff {α : Type} (m : List (String × α)) (f : String) :
    recGet m f = none ↔ ∀ p ∈ m, p.1 ≠ f := by
  induction m with
  | nil => simp [recGet]
  | cons p t ih =>
    obtain ⟨a, w⟩ := p
    simp only [recGet]
    split <;> simp_all

lemma snd_recSet_nodup {α : Type} {m : List (String × α)} {k : String} {v : α}
    (hnd : (m.map Prod.snd).Nodup) (hv : ∀ p ∈ m, p.2 ≠ v) :
    ((recSet m k v).map Prod.snd).Nodup := by
  induction m with
  | nil => simp [recSet]
  | cons p t ih =>
    obtain ⟨a, w⟩ := p
    simp only [List.map_cons, List.nodup_cons] at hnd
    by_cases ha : a = k
    · subst ha
      have hset : recSet ((a, w) :: t) a v = (a, v) :: t := by simp [recSet]
      rw [hset, List.map_cons, List.nodup_cons]
      refine ⟨fun hmem => ?_, hnd.2⟩
      rcases List.mem_map.mp hmem with ⟨q, hq, hq2⟩
      exact hv q (List.mem_cons_of_mem _ hq) hq2
    · simp only [recSet, if_neg ha, List.map_cons, List.nodup_cons]
      refine ⟨fun hmem => ?_, ih hnd.2 (fun p hp => hv p (List.mem_cons_of_mem _ hp))⟩
      rcases List.mem_map.mp hmem with ⟨q, hq, hq2⟩
      rcases mem_recSet hq with h | h
      · exact hv (a, w) (List.mem_cons_self _ _) (by simp [h] at hq2; simp [hq2])
      · exact hnd.1 (hq2 ▸ List.mem_map_of_mem Prod.snd h)

/-! ### String and join lemmas -/

lemma string_eq_iff_data {s t : String} : s = t ↔ s.data = t.data := by
  cases s
  cases t
  exact ⟨fun h => by cases h; rfl, fun h => by cases h; rfl⟩

lemma append_ne_empty_left {a : String} (b : String) (h : a ≠ "") : a ++ b ≠ "" := by
  rw [ne_eq, string_eq_iff_data] at h ⊢
  simpa using fun h1 _ => h h1

lemma joinBackslashN_append_single (ts : List String) (t : String) (h : ts ≠ []) :
    joinBackslashN (ts ++ [t]) = joinBackslashN ts ++ "\\n" ++ t := by
  match ts with
  | t0 :: rest => simp [joinBackslashN, List.foldl_append]

lemma foldl_join_ne_empty (rest : List String) (acc : String) (h : acc ≠ "") :
    rest.foldl (fun acc s => acc ++ "\\n" ++ s) acc ≠ "" := by
  induction rest generalizing acc with
  | nil => simpa
  | cons s tl ih =>
    exact ih _ (append_ne_empty_left _ (append_ne_empty_left _ h))

lemma joinBackslashN_ne_empty {t0 : String} (rest : List String) (h : t0 ≠ "") :
    joinBackslashN (t0 :: rest) ≠ "" :=
  foldl_join_ne_empty rest t0 h

/-! ### Claim theorems for the deck analyzer's report and error handling -/

/-- C2.  The claim states that `generateReport` renders a deterministic
multi-line document whose mapping lines carry the exact arrow token `→` and
whose sections are separated by line breaks.  The code disagrees with the
claim and with the repository's own test (`deck-analyzer.test.ts` expects the
report to contain `"primary → Front"`): on the test's own analysis result the
produced report spells the arrow as the mis-encoded three-character sequence
`â†’` (U+00E2 U+2020 U+2019), not `→` (U+2192), and contains no line-break
character at all — every separator is the literal two-character text
backslash-`n`.  This theorem exhibits the full output on the test's input and
both divergences. -/
theorem generateReport_testdeck_output :
    generateReport reportInput =
      "=== Deck Analysis Report ===\\n\\nDeck: TestDeck\\nSample size: 3\\nPrimary note type: Basic\\n\\nField Analysis:\\n- Front: Short questions\\n- Back: Brief answers\\n\\nSuggested Semantic Mappings:\\n- primary â†’ Front\\n- secondary â†’ Back\\n"
    ∧ jsIncludes (generateReport reportInput) "primary → Front" = false
    ∧ jsIncludes (generateReport reportInput) "primary â†’ Front" = true
    ∧ jsIncludes (generateReport reportInput) "\n" = false := by
  refine ⟨rfl, by decide, by decide, by decide⟩

/-- C3.  For every client, collection name and requested sample size, if the
id lookup returns zero ids then `analyzeDeck` fails with the
collection-empty domain error (`Deck "<name>" contains no cards`) and the
record fetch `getCardsInfo` is never invoked in that call (the call trace
contains only the id lookup). -/
theorem analyzeDeck_empty_collection (client : AnkiConnectClient)
    (deckName : String) (sampleSize : Nat)
    (h : client.findCards ("deck:\"" ++ deckName ++ "\"") = []) :
    (analyzeDeck client deckName sampleSize).1 =
      Except.error ("Deck \"" ++ deckName ++ "\" contains no cards") ∧
    ∀ ids, StoreCall.getCardsInfo ids ∉ (analyzeDeck client deckName sampleSize).2 := by
  unfold analyzeDeck
  simp [h]

/-- Witness for C3: a concrete client whose lookup returns no ids. -/
theorem analyzeDeck_empty_collection_witness :
    (analyzeDeck emptyClient "EmptyDeck" 5).1 =
      Except.error "Deck \"EmptyDeck\" contains no cards" ∧
    StoreCall.getCardsInfo [1] ∉ (analyzeDeck emptyClient "EmptyDeck" 5).2 :=
  ⟨(analyzeDeck_empty_collection emptyClient "EmptyDeck" 5 rfl).1,
   (analyzeDeck_empty_collection emptyClient "EmptyDeck" 5 rfl).2 [1]⟩

/-! ### Claim theorem for `validateMapping` -/

lemma validateLoop_eq_true_iff (avail : List String) (used : List String)
    (m : List (String × String)) :
    validateLoop avail used m = true ↔
      (∀ p ∈ m, p.2 ∈ avail ∧ p.2 ∉ used) ∧ (m.map Prod.snd).Nodup := by
  induction m generalizing used with
  | nil => simp [validateLoop]
  | cons hd tl ih =>
    obtain ⟨l, f⟩ := hd
    simp only [validateLoop]
    cases h1 : avail.contains f with
    | false =>
      simp only [h1, Bool.not_false, if_true]
      constructor
      · intro h
        exact absurd h (by simp)
      · rintro ⟨hmem, -⟩
        have hin : f ∈ avail := (hmem (l, f) (List.mem_cons_self _ _)).1
        have hc := (contains_iff_mem avail f).mpr hin
        rw [h1] at hc
        exact absurd hc (by simp)
    | true =>
      simp only [h1, Bool.not_true, if_false]
      cases h2 : used.contains f with
      | true =>
        simp only [if_pos rfl]
        constructor
        · intro h
          exact absurd h (by simp)
        · rintro ⟨hmem, -⟩
          have := (hmem (l, f) (List.mem_cons_self _ _)).2
          exact absurd ((contains_iff_mem _ _).mp h2) this
      | false =>
        simp only [Bool.false_eq_true, if_false]
        rw [ih (used ++ [f])]
        constructor
        · rintro ⟨hmem, hnd⟩
          refine ⟨?_, ?_⟩
          · rintro p hp
            rcases List.mem_cons.mp hp with rfl | hp
            · refine ⟨(contains_iff_mem _ _).mp h1, fun hf => ?_⟩
              have hc := (contains_iff_mem used f).mpr hf
              rw [h2] at hc
              exact absurd hc (by simp)
            · have := hmem p hp
              exact ⟨this.1, fun hu => this.2 (List.mem_append_left _ hu)⟩
          · rw [List.map_cons, List.nodup_cons]
            refine ⟨fun hf => ?_, hnd⟩
            rcases List.mem_map.mp hf with ⟨q, hq, hq2⟩
            exact (hmem q hq).2 (List.mem_append_right _ (by simp [hq2]))
        · rintro ⟨hmem, hnd⟩
          rw [List.map_cons, List.nodup_cons] at hnd
          refine ⟨?_, hnd.2⟩
          rintro p hp
          have h3 := hmem p (List.mem_cons_of_mem _ hp)
          refine ⟨h3.1, ?_⟩
          intro hu
          rcases List.mem_append.mp hu with hu | hu
          · exact h3.2 hu
          · simp only [List.mem_singleton] at hu
            have hmm : p.2 ∈ tl.map Prod.snd := List.mem_map_of_mem Prod.snd hp
            rw [hu] at hmm
            exact hnd.1 hmm

/-- C6.  For every schema and mapping, `validateMapping` returns `false` iff
some mapped target field is absent from the schema's field set or two mapping
entries target the same field; in particular it returns `true` for the empty
mapping on any schema. -/
theorem validateMapping_iff (noteType : AnkiNoteType) (mapping : List (String × String)) :
    (validateMapping noteType mapping = false ↔
      (∃ p ∈ mapping, p.2 ∉ noteType.fields) ∨ ¬ (mapping.map Prod.snd).Nodup) ∧
    validateMapping noteType [] = true := by
  constructor
  · have h0 : validateMapping noteType mapping = false ↔
        ¬ (validateLoop noteType.fields [] mapping = true) := by
      simp [validateMapping]
    have h1 : (∀ p ∈ mapping, p.2 ∈ noteType.fields ∧ p.2 ∉ ([] : List String)) ↔
        (∀ p ∈ mapping, p.2 ∈ noteType.fields) := by simp
    rw [h0, validateLoop_eq_true_iff, not_and_or, h1]
    apply or_congr _ Iff.rfl
    constructor
    · intro h
      by_contra hc
      push_neg at hc
      exact h hc
    · rintro ⟨p, hp, hnotin⟩ hall
      exact hnotin (hall p hp)
  · rfl

/-! ### Claim theorem for the field classifier -/

lemma ite_ne_of {c : Prop} [Decidable c] {a b t : String} (ha : a ≠ t) (hb : b ≠ t) :
    (if c then a else b) ≠ t := by
  by_cases h : c
  · rwa [if_pos h]
  · rwa [if_neg h]

/-- C9.  For every field name and sample list: if the lowercased field name
contains "pronunciation" then `analyzeFieldContent` returns the rule-1 label
"English expressions or pronunciation" regardless of the samples; and the
rule-2 label "Pronunciation or phonetic information" is returned only for
field names that contain "phonetic" but neither "expression" nor
"pronunciation". -/
theorem analyzeFieldContent_rule_overlap (fieldName : String) (samples : List String) :
    (jsIncludes (jsLower fieldName) "pronunciation" = true →
      analyzeFieldContent fieldName samples = "English expressions or pronunciation") ∧
    (analyzeFieldContent fieldName samples = "Pronunciation or phonetic information" →
      jsIncludes (jsLower fieldName) "phonetic" = true ∧
      jsIncludes (jsLower fieldName) "expression" = false ∧
      jsIncludes (jsLower fieldName) "pronunciation" = false) := by
  constructor
  · intro h
    unfold analyzeFieldContent
    simp [h]
  · intro h
    unfold analyzeFieldContent at h
    by_cases c1 : (jsIncludes (jsLower fieldName) "expression"
        || jsIncludes (jsLower fieldName) "pronunciation") = true
    · rw [if_pos c1] at h
      exact absurd h (by decide)
    · rw [if_neg c1] at h
      rw [Bool.not_eq_true, Bool.or_eq_false_iff] at c1
      by_cases c2 : (jsIncludes (jsLower fieldName) "phonetic"
          || jsIncludes (jsLower fieldName) "pronunciation") = true
      · rw [Bool.or_eq_true] at c2
        rcases c2 with c2 | c2
        · exact ⟨c2, c1.1, c1.2⟩
        · rw [c1.2] at c2
          exact absurd c2 (by simp)
      · rw [if_neg c2] at h
        refine absurd h ?_
        exact ite_ne_of (by decide) (ite_ne_of (by decide) (ite_ne_of (by decide)
          (ite_ne_of (by decide) (ite_ne_of (by decide) (ite_ne_of (by decide)
          (ite_ne_of (by decide) (ite_ne_of (by decide) (ite_ne_of (by decide)
          (ite_ne_of (by decide) (by decide))))))))))

/-- Witness for C9, discharging both hypotheses at concrete inputs: the name
"Pronunciation" triggers rule 1, and the name "phonetics" reaches rule 2. -/
theorem analyzeFieldContent_rule_overlap_witness :
    analyzeFieldContent "Pronunciation" [] = "English expressions or pronunciation" ∧
    (jsIncludes (jsLower "phonetics") "phonetic" = true ∧
     jsIncludes (jsLower "phonetics") "expression" = false ∧
     jsIncludes (jsLower "phonetics") "pronunciation" = false) :=
  ⟨(analyzeFieldContent_rule_overlap "Pronunciation" []).1 (by decide),
   (analyzeFieldContent_rule_overlap "phonetics" []).2 (by decide)⟩

/-! ### The matcher characterization (C5) -/

lemma keywordScan_eq (fl : String) (kws : List String) (c : Nat) :
    keywordScan fl kws c =
      if kws.any (fun k => fl == jsLower k) then 10
      else (kws.map (fun k => tierConf fl (jsLower k))).foldl max c := by
  induction kws generalizing c with
  | nil => simp [keywordScan]
  | cons k rest ih =>
    simp only [keywordScan, List.any_cons, List.map_cons, List.foldl_cons]
    by_cases h1 : fl = jsLower k
    · simp [h1]
    · have hbeq : (fl == jsLower k) = false := by simp [h1]
      rw [if_neg h1]
      by_cases h8 : (jsIncludes fl (jsLower k) && decide (jsLen (jsLower k) > 2)) = true
      · rw [if_pos h8, ih]
        have ht : tierConf fl (jsLower k) = 8 := by rw [tierConf, if_pos h8]
        rw [ht]
        simp [hbeq]
      · rw [if_neg h8]
        by_cases h6 : (jsIncludes (jsLower k) fl && decide (jsLen fl ≥ 4)
            && decide ((jsLen (jsLower k) : Int) - (jsLen fl : Int) ≤ 3)) = true
        · rw [if_pos h6, ih]
          have ht : tierConf fl (jsLower k) = 6 := by
            rw [tierConf, if_neg h8, if_pos h6]
          rw [ht]
          simp [hbeq]
        · rw [if_neg h6, ih]
          have ht : tierConf fl (jsLower k) = 0 := by
            rw [tierConf, if_neg h8, if_neg h6]
          rw [ht]
          simp [hbeq]

lemma fieldConfidence_eq (field : String) (kws : List String) :
    keywordScan (jsLower field) kws 0 = specFieldConfidence field kws := by
  rw [keywordScan_eq, specFieldConfidence]

lemma bestLoop_eq_spec (kws used : List String) (fields : List String) :
    ∀ acc, bestLoop kws used fields acc =
      fields.foldl
        (fun acc field =>
          if used.contains field then acc
          else if specFieldConfidence field kws > acc.2 then
            (some field, specFieldConfidence field kws)
          else acc) acc := by
  induction fields with
  | nil => intro acc; rfl
  | cons f rest ih =>
    rintro ⟨bf, bc⟩
    simp only [bestLoop, List.foldl_cons]
    rw [fieldConfidence_eq]
    by_cases h : used.contains f = true
    · simp only [h, if_true, if_pos rfl]
      exact ih (bf, bc)
    · rw [Bool.not_eq_true] at h
      simp only [h, Bool.false_eq_true, if_false]
      by_cases hcmp : specFieldConfidence f kws > bc
      · simp only [if_pos hcmp]
        exact ih _
      · simp only [if_neg hcmp]
        exact ih _

lemma findBestFieldMatch_eq_spec (fields kws used : List String) :
    findBestFieldMatch fields kws used = bestMatchSpec fields kws used :=
  bestLoop_eq_spec kws used fields (none, 0)

lemma bestMatchSpec_zero (kws used : List String) (fields : List String)
    (h : ∀ f ∈ fields, used.contains f = true ∨ specFieldConfidence f kws = 0) :
    bestMatchSpec fields kws used = (none, 0) := by
  induction fields with
  | nil => rfl
  | cons f rest ih =>
    have hstep : (if used.contains f then ((none : Option String), 0)
        else if specFieldConfidence f kws > (0:Nat) then (some f, specFieldConfidence f kws)
        else (none, 0)) = ((none : Option String), 0) := by
      by_cases hu : used.contains f = true
      · rw [if_pos hu]
      · have hc0 : specFieldConfidence f kws = 0 := by
          rcases h f (List.mem_cons_self _ _) with hc | hc
          · exact absurd hc hu
          · exact hc
        rw [if_neg hu, hc0, if_neg (lt_irrefl 0)]
    show List.foldl _ _ (f :: rest) = _
    rw [List.foldl_cons]
    rw [hstep]
    exact ih (fun g hg => h g (List.mem_cons_of_mem _ hg))

/-- C5.  `findBestFieldMatch` computes exactly the spec-side selection
`bestMatchSpec` built from the per-field confidence `specFieldConfidence`
(`10` on exact case-insensitive equality with some keyword, otherwise the
maximum keyword tier of `8` and `6`), scanning fields in declared order,
skipping used ones and keeping the first field of strictly highest
confidence; and it returns no field at confidence `0` when every field is
used or scores `0`. -/
theorem findBestFieldMatch_spec (fields keywords usedFields : List String) :
    findBestFieldMatch fields keywords usedFields = bestMatchSpec fields keywords usedFields ∧
    ((∀ f ∈ fields, usedFields.contains f = true ∨ specFieldConfidence f keywords = 0) →
      findBestFieldMatch fields keywords usedFields = (none, 0)) :=
  ⟨findBestFieldMatch_eq_spec fields keywords usedFields,
   fun h => (findBestFieldMatch_eq_spec fields keywords usedFields).trans
     (bestMatchSpec_zero keywords usedFields fields h)⟩

/-- Witness for C5: on the concrete schema `["zz"]` no keyword of the
"primary" pattern scores, and the matcher indeed returns no field. -/
theorem findBestFieldMatch_spec_witness :
    findBestFieldMatch ["zz"] ["front", "question"] [] = (none, 0) :=
  (findBestFieldMatch_spec ["zz"] ["front", "question"] []).2 (by decide)

/-! ### The no-match fallback of `suggestMappings` (C4) -/

lemma specFold_snd_ge (kws used : List String) (fields : List String) :
    ∀ acc : Option String × Nat,
      acc.2 ≤ (fields.foldl
        (fun acc field =>
          if used.contains field then acc
          else if specFieldConfidence field kws > acc.2 then
            (some field, specFieldConfidence field kws)
          else acc) acc).2 := by
  induction fields with
  | nil => intro acc; exact le_refl _
  | cons f rest ih =>
    intro acc
    rw [List.foldl_cons]
    refine le_trans ?_ (ih _)
    by_cases hu : used.contains f = true
    · rw [if_pos hu]
    · rw [if_neg hu]
      by_cases hc : specFieldConfidence f kws > acc.2
      · rw [if_pos hc]
        exact le_of_lt hc
      · rw [if_neg hc]

lemma specFold_mem_ge (kws used : List String) (fields : List String) :
    ∀ acc : Option String × Nat, ∀ f ∈ fields, used.contains f = false →
      specFieldConfidence f kws ≤ (fields.foldl
        (fun acc field =>
          if used.contains field then acc
          else if specFieldConfidence field kws > acc.2 then
            (some field, specFieldConfidence field kws)
          else acc) acc).2 := by
  induction fields with
  | nil =>
    intro acc f hf
    exact absurd hf (List.not_mem_nil f)
  | cons g rest ih =>
    intro acc f hf hu
    rw [List.foldl_cons]
    rcases List.mem_cons.mp hf with rfl | hf
    · refine le_trans ?_ (specFold_snd_ge kws used rest _)
      have hne : ¬ (used.contains f = true) := by rw [hu]; simp
      rw [if_neg hne]
      by_cases hc : specFieldConfidence f kws > acc.2
      · rw [if_pos hc]
      · rw [if_neg hc]
        exact le_of_not_lt hc
    · exact ih _ f hf hu

lemma allzero_of_findBest_zero (fields kws : List String)
    (h : (findBestFieldMatch fields kws []).2 = 0) :
    ∀ f ∈ fields, specFieldConfidence f kws = 0 := by
  intro f hf
  have h1 := specFold_mem_ge kws [] fields ((none : Option String), 0) f hf rfl
  rw [findBestFieldMatch_eq_spec, bestMatchSpec] at h
  rw [h] at h1
  exact Nat.le_zero.mp h1

lemma findBest_none_of_allzero (fields kws used : List String)
    (h : ∀ f ∈ fields, specFieldConfidence f kws = 0) :
    findBestFieldMatch fields kws used = (none, 0) :=
  (findBestFieldMatch_eq_spec fields kws used).trans
    (bestMatchSpec_zero kws used fields (fun f hf => Or.inr (h f hf)))

lemma pass1_fold_nop (fields : List String) (ps : List SemanticPattern)
    (h : ∀ p ∈ ps, ∀ used, findBestFieldMatch fields p.keywords used = (none, 0)) :
    ∀ st, ps.foldl (pass1Step fields) st = st := by
  induction ps with
  | nil => intro st; rfl
  | cons p rest ih =>
    intro st
    rw [List.foldl_cons]
    have hstep : pass1Step fields st p = st := by
      obtain ⟨m, u⟩ := st
      simp only [pass1Step]
      rw [h p (List.mem_cons_self _ _) u]
    rw [hstep]
    exact ih (fun q hq => h q (List.mem_cons_of_mem _ hq)) st

lemma pass2_fold_nop (fields : List String) (ps : List SemanticPattern)
    (h : ∀ p ∈ ps, ∀ used, findBestFieldMatch fields p.keywords used = (none, 0)) :
    ∀ st, ps.foldl (pass2Step fields) st = st := by
  induction ps with
  | nil => intro st; rfl
  | cons p rest ih =>
    intro st
    rw [List.foldl_cons]
    have hstep : pass2Step fields st p = st := by
      obtain ⟨m, u⟩ := st
      simp only [pass2Step]
      by_cases ht : optStrTruthy (recGet m p.semantic) = true
      · rw [if_pos ht]
      · rw [if_neg ht, h p (List.mem_cons_self _ _) u]
    rw [hstep]
    exact ih (fun q hq => h q (List.mem_cons_of_mem _ hq)) st

/-- C4.  For every schema with at least two (distinct, per the data model)
fields on which every pattern's matcher confidence is `0`, `suggestMappings`
returns exactly the two fixed-position assignments
`primary ↦ fields[0]`, `secondary ↦ fields[1]`. -/
theorem suggestMappings_positional_fallback (nt : AnkiNoteType) (f0 f1 : String)
    (rest : List String) (hf : nt.fields = f0 :: f1 :: rest) (hnd : nt.fields.Nodup)
    (hzero : ∀ p ∈ patterns, (findBestFieldMatch nt.fields p.keywords []).2 = 0) :
    suggestMappings nt = [("primary", f0), ("secondary", f1)] := by
  have hz : ∀ p ∈ patterns, ∀ used, findBestFieldMatch nt.fields p.keywords used = (none, 0) :=
    fun p hp used =>
      findBest_none_of_allzero _ _ _ (allzero_of_findBest_zero _ _ (hzero p hp))
  have h01 : f0 ≠ f1 := by
    rw [hf] at hnd
    have h2 := (List.nodup_cons.mp hnd).1
    intro hq
    exact h2 (hq ▸ List.mem_cons_self f1 rest)
  simp only [suggestMappings]
  rw [pass1_fold_nop nt.fields patterns hz ([], []),
    pass2_fold_nop nt.fields patterns hz ([], []), hf]
  have hp : ("primary" : String) ≠ "secondary" := by decide
  have hbeq : (f1 == f0) = false := beq_eq_false_iff_ne.mpr (Ne.symm h01)
  simp [recGet, recSet, optStrTruthy, List.contains, List.elem, h01, Ne.symm h01, hp, hbeq]

/-- Witness for C4: the schema `["xx", "yy"]` matches no pattern keyword, and
the fallback assigns exactly the two positional fields. -/
theorem suggestMappings_positional_fallback_witness :
    suggestMappings ⟨"T", ["xx", "yy"]⟩ = [("primary", "xx"), ("secondary", "yy")] :=
  suggestMappings_positional_fallback ⟨"T", ["xx", "yy"]⟩ "xx" "yy" []
    rfl (by decide) (by decide)

/-! ### `suggestMappings` always validates (C10) -/

lemma bestLoop_some (kws used : List String) (fields : List String) :
    ∀ acc f, (bestLoop kws used fields acc).1 = some f →
      acc.1 = some f ∨ (f ∈ fields ∧ used.contains f = false) := by
  induction fields with
  | nil =>
    intro acc f h
    exact Or.inl h
  | cons g rest ih =>
    rintro ⟨bf, bc⟩ f h
    simp only [bestLoop] at h
    by_cases hu : used.contains g = true
    · rw [if_pos hu] at h
      rcases ih _ f h with h1 | h1
      · exact Or.inl h1
      · exact Or.inr ⟨List.mem_cons_of_mem _ h1.1, h1.2⟩
    · rw [if_neg hu] at h
      rw [Bool.not_eq_true] at hu
      by_cases hc : keywordScan (jsLower g) kws 0 > bc
      · rw [if_pos hc] at h
        rcases ih _ f h with h1 | h1
        · have hgf : g = f := by simpa using h1
          subst hgf
          exact Or.inr ⟨List.mem_cons_self _ _, hu⟩
        · exact Or.inr ⟨List.mem_cons_of_mem _ h1.1, h1.2⟩
      · rw [if_neg hc] at h
        rcases ih _ f h with h1 | h1
        · exact Or.inl h1
        · exact Or.inr ⟨List.mem_cons_of_mem _ h1.1, h1.2⟩

lemma findBestFieldMatch_some {fields kws used : List String} {f : String} {c : Nat}
    (h : findBestFieldMatch fields kws used = (some f, c)) :
    f ∈ fields ∧ used.contains f = false := by
  have h1 : (bestLoop kws used fields (none, 0)).1 = some f := by
    rw [findBestFieldMatch] at h
    rw [h]
  rcases bestLoop_some kws used fields (none, 0) f h1 with h2 | h2
  · exact absurd h2 (by simp)
  · exact h2

lemma MapperInv_assign (fields : List String) {m : List (String × String)} {u : List String}
    (sem f : String) (hInv : MapperInv fields (m, u))
    (hf : f ∈ fields) (hu : u.contains f = false) :
    MapperInv fields (recSet m sem f, u ++ [f]) := by
  obtain ⟨h1, h2, h3⟩ := hInv
  have hvne : ∀ p ∈ m, p.2 ≠ f := by
    intro p hp hpf
    have hcon := h3 p hp
    rw [hpf, hu] at hcon
    exact absurd hcon (by simp)
  refine ⟨?_, snd_recSet_nodup h2 hvne, ?_⟩
  · intro p hp
    rcases mem_recSet hp with rfl | hp'
    · exact hf
    · exact h1 p hp'
  · intro p hp
    rcases mem_recSet hp with rfl | hp'
    · exact (contains_iff_mem _ _).mpr (List.mem_append_right _ (List.mem_singleton.mpr rfl))
    · exact (contains_iff_mem _ _).mpr
        (List.mem_append_left _ ((contains_iff_mem _ _).mp (h3 p hp')))

lemma MapperInv_pass1Step (fields : List String) (st : List (String × String) × List String)
    (p : SemanticPattern) (h : MapperInv fields st) :
    MapperInv fields (pass1Step fields st p) := by
  obtain ⟨m, u⟩ := st
  simp only [pass1Step]
  rcases hbm : findBestFieldMatch fields p.keywords u with ⟨bf, bc⟩
  cases bf with
  | none => exact h
  | some f =>
    show MapperInv fields
      (if (f != "" && decide (bc > 8)) = true then (recSet m p.semantic f, u ++ [f]) else (m, u))
    by_cases hcond : (f != "" && decide (bc > 8)) = true
    · rw [if_pos hcond]
      obtain ⟨hmem, hu⟩ := findBestFieldMatch_some hbm
      exact MapperInv_assign fields p.semantic f h hmem hu
    · rw [if_neg hcond]
      exact h

lemma MapperInv_pass2Step (fields : List String) (st : List (String × String) × List String)
    (p : SemanticPattern) (h : MapperInv fields st) :
    MapperInv fields (pass2Step fields st p) := by
  obtain ⟨m, u⟩ := st
  simp only [pass2Step]
  by_cases ht : optStrTruthy (recGet m p.semantic) = true
  · rw [if_pos ht]
    exact h
  · rw [if_neg ht]
    rcases hbm : findBestFieldMatch fields p.keywords u with ⟨bf, bc⟩
    cases bf with
    | none => exact h
    | some f =>
      show MapperInv fields
        (if (f != "" && decide (bc > 5)) = true then (recSet m p.semantic f, u ++ [f]) else (m, u))
      by_cases hcond : (f != "" && decide (bc > 5)) = true
      · rw [if_pos hcond]
        obtain ⟨hmem, hu⟩ := findBestFieldMatch_some hbm
        exact MapperInv_assign fields p.semantic f h hmem hu
      · rw [if_neg hcond]
        exact h

lemma MapperInv_foldl (fields : List String)
    (step : (List (String × String) × List String) → SemanticPattern →
      (List (String × String) × List String))
    (hstep : ∀ st p, MapperInv fields st → MapperInv fields (step st p)) :
    ∀ (ps : List SemanticPattern) st, MapperInv fields st →
      MapperInv fields (ps.foldl step st) := by
  intro ps
  induction ps with
  | nil => intro st h; exact h
  | cons p rest ih =>
    intro st h
    rw [List.foldl_cons]
    exact ih _ (hstep st p h)

lemma validate_of_inv (nt : AnkiNoteType) (m : List (String × String))
    (h1 : ∀ p ∈ m, p.2 ∈ nt.fields) (h2 : (m.map Prod.snd).Nodup) :
    validateMapping nt m = true := by
  rw [validateMapping, validateLoop_eq_true_iff]
  exact ⟨fun p hp => ⟨h1 p hp, List.not_mem_nil _⟩, h2⟩

/-- C10.  For every schema, the mapping produced by `suggestMappings` passes
`validateMapping` on that schema: every assigned field is a schema field and
no two semantic labels share a target (the passes and both fallback steps
only ever assign unused fields). -/
theorem suggestMappings_validates (nt : AnkiNoteType) :
    validateMapping nt (suggestMappings nt) = true := by
  obtain ⟨nm, fields⟩ := nt
  have hInv2 : MapperInv fields
      (patterns.foldl (pass2Step fields) (patterns.foldl (pass1Step fields) ([], []))) :=
    MapperInv_foldl fields _ (MapperInv_pass2Step fields) patterns _
      (MapperInv_foldl fields _ (MapperInv_pass1Step fields) patterns _
        ⟨by simp, by simp, by simp⟩)
  rcases hst2 : patterns.foldl (pass2Step fields) (patterns.foldl (pass1Step fields) ([], []))
    with ⟨m2, u2⟩
  rw [hst2] at hInv2
  cases fields with
  | nil =>
    have hsm : suggestMappings ⟨nm, []⟩ = m2 := by
      simp only [suggestMappings]
      rw [hst2]
    rw [hsm]
    exact validate_of_inv _ _ (fun p hp => hInv2.1 p hp) hInv2.2.1
  | cons f0 rest =>
    have hInv3 : MapperInv (f0 :: rest)
        (if !optStrTruthy (recGet m2 "primary") && !u2.contains f0 then
          (recSet m2 "primary" f0, u2 ++ [f0]) else (m2, u2)) := by
      by_cases hg : (!optStrTruthy (recGet m2 "primary") && !u2.contains f0) = true
      · rw [if_pos hg]
        have hu : u2.contains f0 = false := by
          have hb := hg
          rw [Bool.and_eq_true] at hb
          have hb2 := hb.2
          rwa [Bool.not_eq_true'] at hb2
        exact MapperInv_assign _ "primary" f0 hInv2 (List.mem_cons_self _ _) hu
      · rw [if_neg hg]
        exact hInv2
    rcases hst3 : (if !optStrTruthy (recGet m2 "primary") && !u2.contains f0 then
        (recSet m2 "primary" f0, u2 ++ [f0]) else (m2, u2)) with ⟨m3, u3⟩
    rw [hst3] at hInv3
    cases rest with
    | nil =>
      have hsm : suggestMappings ⟨nm, [f0]⟩ = m3 := by
        simp only [suggestMappings]
        rw [hst2, hst3]
      rw [hsm]
      exact validate_of_inv _ _ (fun p hp => hInv3.1 p hp) hInv3.2.1
    | cons f1 rest2 =>
      have hsm : suggestMappings ⟨nm, f0 :: f1 :: rest2⟩ =
          (if !optStrTruthy (recGet m3 "secondary") && !u3.contains f1 then
            recSet m3 "secondary" f1 else m3) := by
        simp only [suggestMappings]
        rw [hst2, hst3]
      rw [hsm]
      by_cases hg2 : (!optStrTruthy (recGet m3 "secondary") && !u3.contains f1) = true
      · rw [if_pos hg2]
        have hu1 : u3.contains f1 = false := by
          have hb := hg2
          rw [Bool.and_eq_true] at hb
          have hb2 := hb.2
          rwa [Bool.not_eq_true'] at hb2
        have hInv4 := MapperInv_assign _ "secondary" f1 hInv3 (by simp) hu1
        exact validate_of_inv _ _ (fun p hp => hInv4.1 p hp) hInv4.2.1
      · rw [if_neg hg2]
        exact validate_of_inv _ _ (fun p hp => hInv3.1 p hp) hInv3.2.1

/-! ### The fallback of `getSuggestionDetails` (C7) -/

lemma detailsStep_pres (fields : List String) (st : List FieldMappingSuggestion × List String)
    (p : SemanticPattern)
    (h : ∀ e ∈ st.1, e.field ∈ fields ∧ st.2.contains e.field = true) :
    ∀ e ∈ (detailsStep fields st p).1,
      e.field ∈ fields ∧ (detailsStep fields st p).2.contains e.field = true := by
  obtain ⟨sug, used⟩ := st
  simp only [detailsStep]
  rcases hbm : findBestFieldMatch fields p.keywords used with ⟨bf, bc⟩
  cases bf with
  | none => exact h
  | some f =>
    show ∀ e ∈ (if (f != "") = true then (sug ++ [⟨p.semantic, f, bc⟩], used ++ [f])
        else (sug, used)).1,
      e.field ∈ fields ∧
        (if (f != "") = true then (sug ++ [⟨p.semantic, f, bc⟩], used ++ [f])
          else (sug, used)).2.contains e.field = true
    by_cases hf : (f != "") = true
    · rw [if_pos hf]
      intro e he
      rcases List.mem_append.mp he with he | he
      · obtain ⟨h1, h2⟩ := h e he
        exact ⟨h1, (contains_iff_mem _ _).mpr
          (List.mem_append_left _ ((contains_iff_mem _ _).mp h2))⟩
      · simp only [List.mem_singleton] at he
        subst he
        obtain ⟨hmem, -⟩ := findBestFieldMatch_some hbm
        exact ⟨hmem, (contains_iff_mem _ _).mpr (List.mem_append_right _ (by simp))⟩
    · rw [if_neg hf]
      exact h

lemma suggestionFold_inv (fields : List String) :
    ∀ (ps : List SemanticPattern) (st : List FieldMappingSuggestion × List String),
      (∀ e ∈ st.1, e.field ∈ fields ∧ st.2.contains e.field = true) →
      ∀ e ∈ (ps.foldl (detailsStep fields) st).1,
        e.field ∈ fields ∧ (ps.foldl (detailsStep fields) st).2.contains e.field = true := by
  intro ps
  induction ps with
  | nil => intro st h; exact h
  | cons p rest ih =>
    intro st h
    rw [List.foldl_cons]
    exact ih _ (detailsStep_pres fields st p h)

lemma suggestionPass_inv (nt : AnkiNoteType) :
    ∀ e ∈ (suggestionPass nt).1,
      e.field ∈ nt.fields ∧ (suggestionPass nt).2.contains e.field = true :=
  suggestionFold_inv nt.fields patterns ([], []) (by simp)

/-- Counterexample for C7.  The claim that `getSuggestionDetails` appends a
"primary" entry whenever the pass produced none and some field is unused
fails for the schema with the single field `""`: the pass produces nothing
and leaves `""` unused, yet the source's `if (field)` truthiness test skips
the empty-string field, so no fallback entry is appended at all. -/
theorem getSuggestionDetails_empty_name_counterexample :
    suggestionPass ⟨"Note", [""]⟩ = ([], []) ∧ getSuggestionDetails ⟨"Note", [""]⟩ = [] := by
  constructor
  · rfl
  · rfl

/-- C7 (amended).  For every schema, `getSuggestionDetails` is its single
pass over the pattern table followed by exactly the spec-side fallback
`fallbackSuggestionsSpec`: when the pass produced no "primary" entry and some
field is unused, the first unused field in declared order is appended for
"primary" at confidence `3` (i.e. `0.3`) provided its name is non-empty (the
amendment forced by the counterexample), and the same rule is then applied
for "secondary" if still absent. -/
theorem getSuggestionDetails_fallback_spec (nt : AnkiNoteType) :
    getSuggestionDetails nt = (suggestionPass nt).1 ++
      fallbackSuggestionsSpec (suggestionPass nt).1 (suggestionPass nt).2 nt.fields := by
  obtain ⟨nm, fields⟩ := nt
  have hInvAll := suggestionPass_inv ⟨nm, fields⟩
  rcases hp : suggestionPass ⟨nm, fields⟩ with ⟨E, U⟩
  rw [hp] at hInvAll
  simp only [getSuggestionDetails, fallbackSuggestionsSpec]
  rw [hp]
  clear hp
  dsimp only at hInvAll ⊢
  by_cases hprim : ((E.map fun e => e.semantic).contains "primary") = true
  · simp only [hprim, Bool.not_true, Bool.false_and, Bool.false_eq_true, if_false,
      eq_self_iff_true, if_true]
    try dsimp only
    simp only [List.map_nil, List.append_nil, List.nil_append]
    by_cases hsec : ((E.map fun e => e.semantic).contains "secondary") = true
    · simp only [hsec, Bool.not_true, Bool.false_and, Bool.false_eq_true, if_false,
        eq_self_iff_true, if_true]
      simp
    · have hsecb := hsec
      rw [Bool.not_eq_true] at hsecb
      simp only [hsecb, Bool.not_false, Bool.true_and, Bool.false_eq_true, if_false]
      cases fields with
      | nil =>
        rw [show List.find? (fun f => !U.contains f) ([] : List String) = none from rfl]
        simp
      | cons f0 rest =>
        cases rest with
        | nil =>
          simp only [show (decide ((f0 :: ([] : List String)).length > 1)) = false from rfl,
            Bool.false_eq_true, if_false]
          by_cases hu0 : U.contains f0 = true
          · rw [show List.find? (fun f => !U.contains f) [f0] = none by
              simp only [List.find?, hu0, Bool.not_true]]
            simp
          · exfalso
            have hex : ∃ e ∈ E, e.semantic = "primary" := by
              have hm := (contains_iff_mem _ _).mp hprim
              rcases List.mem_map.mp hm with ⟨e, he, hsem⟩
              exact ⟨e, he, hsem⟩
            rcases hex with ⟨e, he, -⟩
            obtain ⟨hfe, hc⟩ := hInvAll e he
            simp only [List.mem_singleton] at hfe
            rw [hfe] at hc
            exact hu0 hc
        | cons f1 rest2 =>
          have hlen : decide ((f0 :: f1 :: rest2).length > 1) = true := by simp
          simp only [hlen, eq_self_iff_true, if_true]
          rcases hfind : List.find? (fun f => !U.contains f) (f0 :: f1 :: rest2) with _ | f
          · try rw [hfind]
            try dsimp only
            simp
          · try rw [hfind]
            try dsimp only
            by_cases hf2 : (f != "") = true
            · simp [hf2]
            · have hfb : (f != "") = false := by rwa [Bool.not_eq_true] at hf2
              simp [hfb]
  · have hprimb := hprim
    rw [Bool.not_eq_true] at hprimb
    simp only [hprimb, Bool.not_false, Bool.true_and, Bool.false_eq_true, if_false]
    cases fields with
    | nil =>
      simp only [show (decide (([] : List String).length > 0)) = false from rfl,
        Bool.false_eq_true, if_false]
      rw [show List.find? (fun f => !U.contains f) ([] : List String) = none from rfl]
      try dsimp only
      simp
    | cons f0 rest =>
      have hlen0 : decide ((f0 :: rest).length > 0) = true := by simp
      simp only [hlen0, eq_self_iff_true, if_true]
      rcases hfind : List.find? (fun f => !U.contains f) (f0 :: rest) with _ | f
      · try rw [hfind]
        try dsimp only
        simp only [List.map_nil, List.append_nil, List.nil_append]
        try rw [hfind]
        try dsimp only
        simp
      · try rw [hfind]
        try dsimp only
        by_cases hf : (f != "") = true
        · simp only [hf, eq_self_iff_true, if_true]
          try dsimp only
          simp only [List.map_cons, List.map_nil]
          try dsimp only
          by_cases hsec : ((E.map fun e => e.semantic).contains "secondary") = true
          · simp only [hsec, Bool.not_true, Bool.false_and, Bool.false_eq_true, if_false,
              eq_self_iff_true, if_true]
            simp
          · have hsecb := hsec
            rw [Bool.not_eq_true] at hsecb
            simp only [hsecb, Bool.not_false, Bool.true_and, Bool.false_eq_true, if_false]
            cases rest with
            | nil =>
              simp only [show (decide ((f0 :: ([] : List String)).length > 1)) = false from rfl,
                Bool.false_eq_true, if_false]
              have hff : f = f0 := by
                have hmem := List.mem_of_find?_eq_some hfind
                simpa using hmem
              have hmemf : f ∈ U ++ [f] := List.mem_append_right _ (by simp)
              rw [show List.find? (fun g => !(U ++ [f]).contains g) [f0] = none by
                rw [← hff]; simp [List.find?, hmemf]]
              try dsimp only
              simp
            | cons f1 rest2 =>
              have hlen : decide ((f0 :: f1 :: rest2).length > 1) = true := by simp
              simp only [hlen, eq_self_iff_true, if_true]
              rcases hfind2 : List.find? (fun g => !(U ++ [f]).contains g) (f0 :: f1 :: rest2)
                with _ | g
              · try rw [hfind2]
                try dsimp only
                simp
              · try rw [hfind2]
                try dsimp only
                by_cases hg : (g != "") = true
                · simp only [hg, eq_self_iff_true, if_true]
                  simp
                · have hgb : (g != "") = false := by rwa [Bool.not_eq_true] at hg
                  simp only [hgb, Bool.false_eq_true, if_false]
                  simp
        · have hfb : (f != "") = false := by rwa [Bool.not_eq_true] at hf
          simp only [hfb, Bool.false_eq_true, if_false]
          try dsimp only
          simp only [List.map_nil, List.append_nil, List.nil_append]
          by_cases hsec : ((E.map fun e => e.semantic).contains "secondary") = true
          · simp only [hsec, Bool.not_true, Bool.false_and, Bool.false_eq_true, if_false,
              eq_self_iff_true, if_true]
            simp
          · have hsecb := hsec
            rw [Bool.not_eq_true] at hsecb
            simp only [hsecb, Bool.not_false, Bool.true_and, Bool.false_eq_true, if_false]
            cases rest with
            | nil =>
              simp only [show (decide ((f0 :: ([] : List String)).length > 1)) = false from rfl,
                Bool.false_eq_true, if_false]
              try rw [hfind]
              try dsimp only
              simp only [hfb, Bool.false_eq_true, if_false]
              simp
            | cons f1 rest2 =>
              have hlen : decide ((f0 :: f1 :: rest2).length > 1) = true := by simp
              simp only [hlen, eq_self_iff_true, if_true]
              try rw [hfind]
              try dsimp only
              simp only [hfb, Bool.false_eq_true, if_false]
              simp

/-! ### The merge behaviour of `applyMapping` (C1) -/

lemma recGet_mem {α : Type} {m : List (String × α)} {k : String} {v : α}
    (h : recGet m k = some v) : (k, v) ∈ m := by
  induction m with
  | nil => simp [recGet] at h
  | cons p t ih =>
    obtain ⟨a, w⟩ := p
    simp only [recGet] at h
    split at h
    · rename_i heq
      simp only [Option.some.injEq] at h
      subst heq
      subst h
      exact List.mem_cons_self _ _
    · exact List.mem_cons_of_mem _ (ih h)

lemma applyStep_values (mapping acc : List (String × String)) (e : String × String)
    (h : ∀ p ∈ acc, p.2 ≠ "") : ∀ p ∈ applyStep mapping acc e, p.2 ≠ "" := by
  obtain ⟨sem, txt⟩ := e
  simp only [applyStep]
  rcases hr : recGet mapping sem with _ | fld
  · exact h
  · show ∀ p ∈ (if (fld != "" && txt != "" && jsTrim txt != "") = true then
        (if optStrTruthy (recGet acc fld) = true then
          recModify acc fld (fun v => v ++ "\\n" ++ txt)
        else recSet acc fld txt)
      else acc), p.2 ≠ ""
    by_cases hc : (fld != "" && txt != "" && jsTrim txt != "") = true
    · rw [if_pos hc]
      by_cases ht : optStrTruthy (recGet acc fld) = true
      · rw [if_pos ht]
        intro p hp
        rcases mem_recModify hp with hp' | ⟨v, hv, rfl⟩
        · exact h p hp'
        · exact append_ne_empty_left _ (append_ne_empty_left _ (h _ hv))
      · rw [if_neg ht]
        intro p hp
        rcases mem_recSet hp with rfl | hp'
        · show txt ≠ ""
          rw [Bool.and_eq_true, Bool.and_eq_true] at hc
          exact bne_iff_ne.mp hc.1.2
        · exact h p hp'
    · rw [if_neg hc]
      exact h

lemma applyMapping_values (mapping content : List (String × String)) :
    ∀ p ∈ applyMapping mapping content, p.2 ≠ "" := by
  suffices h : ∀ (acc : List (String × String)), (∀ p ∈ acc, p.2 ≠ "") →
      ∀ p ∈ content.foldl (applyStep mapping) acc, p.2 ≠ "" by
    exact h [] (by simp)
  induction content with
  | nil => intro acc h; exact h
  | cons e rest ih =>
    intro acc h
    rw [List.foldl_cons]
    exact ih _ (applyStep_values mapping acc e h)

lemma applyMapping_get (mapping content : List (String × String)) :
    ∀ f, recGet (applyMapping mapping content) f =
      if contributedTexts mapping content f = [] then none
      else some (joinBackslashN (contributedTexts mapping content f)) := by
  induction content using List.reverseRecOn with
  | nil =>
    intro f
    simp [applyMapping, contributedTexts, mappedContributions, recGet]
  | append_singleton content e ih =>
    intro f
    have hct : ∀ g, contributedTexts mapping (content ++ [e]) g =
        contributedTexts mapping content g ++ contributedTexts mapping [e] g := by
      intro g
      simp [contributedTexts, mappedContributions, List.filterMap_append, List.filter_append]
    rw [applyMapping, List.foldl_append, List.foldl_cons, List.foldl_nil, hct,
      show List.foldl (applyStep mapping) [] content = applyMapping mapping content from rfl]
    obtain ⟨sem, txt⟩ := e
    simp only [applyStep]
    rcases hr : recGet mapping sem with _ | fld
    · have hc0 : contributedTexts mapping [(sem, txt)] f = [] := by
        simp [contributedTexts, mappedContributions, hr]
      rw [hc0, List.append_nil]
      exact ih f
    · show recGet (if (fld != "" && txt != "" && jsTrim txt != "") = true then
          (if optStrTruthy (recGet (applyMapping mapping content) fld) = true then
            recModify (applyMapping mapping content) fld (fun v => v ++ "\\n" ++ txt)
          else recSet (applyMapping mapping content) fld txt)
        else applyMapping mapping content) f = _
      by_cases hc : (fld != "" && txt != "" && jsTrim txt != "") = true
      · have hc' := hc
        simp only [Bool.and_eq_true, bne_iff_ne, ne_eq] at hc'
        have hc1 : contributedTexts mapping [(sem, txt)] f =
            if fld = f then [txt] else [] := by
          simp only [contributedTexts, mappedContributions]
          simp [hr, hc'.1.1, hc'.1.2, hc'.2, List.filter_cons]
          split <;> simp
        rw [if_pos hc, hc1]
        by_cases hxf : fld = f
        · subst hxf
          rw [if_pos rfl]
          by_cases ht : optStrTruthy (recGet (applyMapping mapping content) fld) = true
          · rw [if_pos ht]
            by_cases hpe : contributedTexts mapping content fld = []
            · exfalso
              rw [show recGet (applyMapping mapping content) fld =
                  none from by rw [ih fld, if_pos hpe]] at ht
              simp [optStrTruthy] at ht
            · have hsome : recGet (applyMapping mapping content) fld =
                  some (joinBackslashN (contributedTexts mapping content fld)) := by
                rw [ih fld, if_neg hpe]
              rw [recGet_recModify_self _ hsome]
              rw [if_neg (by simp)]
              rw [joinBackslashN_append_single _ _ hpe]
          · rw [if_neg ht]
            have hnone : recGet (applyMapping mapping content) fld = none := by
              rcases hg : recGet (applyMapping mapping content) fld with _ | v
              · rfl
              · exfalso
                have hv := applyMapping_values mapping content (fld, v) (recGet_mem hg)
                apply ht
                rw [hg]
                simp only [optStrTruthy, bne_iff_ne, ne_eq, decide_not]
                simpa using hv
            have hpe : contributedTexts mapping content fld = [] := by
              by_cases hpe : contributedTexts mapping content fld = []
              · exact hpe
              · exfalso
                rw [ih fld, if_neg hpe] at hnone
                simp at hnone
            rw [recSet_of_absent _ hnone, recGet_append_of_none _ hnone, hpe]
            simp [recGet, joinBackslashN]
        · rw [if_neg hxf, List.append_nil]
          by_cases ht : optStrTruthy (recGet (applyMapping mapping content) fld) = true
          · rw [if_pos ht, recGet_recModify_ne _ _ (Ne.symm hxf)]
            exact ih f
          · rw [if_neg ht, recGet_recSet_ne _ _ (Ne.symm hxf)]
            exact ih f
      · rw [if_neg hc]
        have hc2 : ¬((¬fld = "" ∧ ¬txt = "") ∧ ¬jsTrim txt = "") := by simpa using hc
        have hc0 : contributedTexts mapping [(sem, txt)] f = [] := by
          simp [contributedTexts, mappedContributions, hr, hc2]
        rw [hc0, List.append_nil]
        exact ih f

/-- Counterexample for C1.  The claim says texts sharing a target are joined
"with a newline".  The source's template literal spells `\\n`, so the merge
separator is the two-character text backslash-`n`; on the spec's own example
(`primary` and `secondary` both mapped to `Front`) the result differs from
the newline-joined value the claim predicts.  The repository's own test
(`field-mapper.test.ts`) also expects the backslash-`n` text, agreeing with
the code. -/
theorem applyMapping_newline_counterexample :
    applyMapping [("primary", "Front"), ("secondary", "Front")]
        [("primary", "P"), ("secondary", "S")] =
      [("Front", "P\\nS")] ∧
    applyMapping [("primary", "Front"), ("secondary", "Front")]
        [("primary", "P"), ("secondary", "S")] ≠
      [("Front", "P\nS")] := by
  constructor
  · rfl
  · decide

/-- C1 (amended).  For every mapping and content map, `applyMapping` emits no
empty-string value; a pair whose label is unmapped (or mapped to an empty
field name) or whose text is blank contributes nothing; and the texts of the
labels sharing a target field are joined in content-map iteration order with
the literal two-character separator backslash-`n` (the amendment: the
source's `\\n`, not a line-break character) between consecutive texts. -/
theorem applyMapping_merge_characterization (mapping content : List (String × String)) :
    (∀ p ∈ applyMapping mapping content, p.2 ≠ "") ∧
    (∀ f, recGet (applyMapping mapping content) f =
      if contributedTexts mapping content f = [] then none
      else some (joinBackslashN (contributedTexts mapping content f))) :=
  ⟨applyMapping_values mapping content, applyMapping_get mapping content⟩

/-! ### The field-sample aggregation (C8) -/

lemma getFieldSamples_eq_flatMap (cards : List AnkiCard) :
    getFieldSamples cards = (cards.flatMap (fun c => c.fields)).foldl sampleStep [] := by
  suffices h : ∀ m, cards.foldl (fun m card => card.fields.foldl sampleStep m) m =
      (cards.flatMap (fun c => c.fields)).foldl sampleStep m by
    exact h []
  induction cards with
  | nil => intro m; rfl
  | cons c rest ih =>
    intro m
    rw [List.foldl_cons, List.flatMap_cons, List.foldl_append]
    exact ih _

lemma kept_nil_of_not_any {entries : List (String × String)} {g : String}
    (h : entries.any (fun e => e.1 == g) = false) : keptSamples entries g = [] := by
  rw [keptSamples]
  rw [List.any_eq_false] at h
  have hf : entries.filter (fun e => e.1 == g) = [] := List.filter_eq_nil_iff.mpr h
  rw [hf]
  rfl

lemma kept_single_blank {g v : String} (htr : jsTrim v = "") (h : String) :
    keptSamples [(g, v)] h = [] := by
  by_cases hq : (g == h) = true <;>
    simp [keptSamples, List.filter_cons, hq, htr]

lemma kept_single_nonblank {g v : String} (htr : jsTrim v ≠ "") :
    keptSamples [(g, v)] g = [jsTake v 50] := by
  simp [keptSamples, List.filter_cons, htr]

lemma kept_single_ne {g f v : String} (hne : (g == f) = false) :
    keptSamples [(g, v)] f = [] := by
  simp [keptSamples, List.filter_cons, hne]

lemma trunc_eq_take (v : String) :
    (if decide (jsLen v > 50) = true then jsTake v 50 else v) = jsTake v 50 := by
  by_cases hlen : decide (jsLen v > 50) = true
  · rw [if_pos hlen]
  · rw [if_neg hlen]
    have h2 : ¬ jsLen v > 50 := by simpa using hlen
    have h3 : v.data.length ≤ 50 := Nat.le_of_not_lt h2
    rw [string_eq_iff_data]
    show v.data = (jsTake v 50).data
    rw [jsTake]
    exact (List.take_of_length_le h3).symm

lemma sampleFold_get (entries : List (String × String)) :
    ∀ f, recGet (entries.foldl sampleStep []) f =
      if entries.any (fun e => e.1 == f) then some (keptSamples entries f) else none := by
  induction entries using List.reverseRecOn with
  | nil =>
    intro f
    simp [keptSamples, recGet]
  | append_singleton entries e ih =>
    intro f
    obtain ⟨g, v⟩ := e
    have hany : (entries ++ [(g, v)]).any (fun e => e.1 == f) =
        ((entries.any (fun e => e.1 == f)) || (g == f)) := by
      simp [List.any_append]
    have hkept : keptSamples (entries ++ [(g, v)]) f =
        keptSamples entries f ++ keptSamples [(g, v)] f := by
      simp [keptSamples, List.filter_append]
    rw [List.foldl_append, List.foldl_cons, List.foldl_nil, hany, hkept]
    simp only [sampleStep]
    have hgood : recGet (if recHas (entries.foldl sampleStep []) g then
        entries.foldl sampleStep [] else entries.foldl sampleStep [] ++ [(g, [])]) g =
        some (keptSamples entries g) := by
      by_cases hd : entries.any (fun e => e.1 == g) = true
      · have hh : recHas (entries.foldl sampleStep []) g = true := by
          rw [recHas, ih g, if_pos hd]
          rfl
        rw [if_pos hh, ih g, if_pos hd]
      · have hdf : entries.any (fun e => e.1 == g) = false := by
          rwa [← Bool.not_eq_true]
        have hnone : recGet (entries.foldl sampleStep []) g = none := by
          rw [ih g, if_neg hd]
        have hh : ¬ recHas (entries.foldl sampleStep []) g = true := by
          rw [recHas, hnone]
          simp
        rw [if_neg hh, recGet_append_of_none _ hnone, kept_nil_of_not_any hdf]
        simp [recGet]
    have hother : f ≠ g → recGet (if recHas (entries.foldl sampleStep []) g then
        entries.foldl sampleStep [] else entries.foldl sampleStep [] ++ [(g, [])]) f =
        recGet (entries.foldl sampleStep []) f := by
      intro hne
      by_cases hh : recHas (entries.foldl sampleStep []) g = true
      · rw [if_pos hh]
      · rw [if_neg hh]
        rcases hx : recGet (entries.foldl sampleStep []) f with _ | w
        · rw [recGet_append_of_none _ hx]
          simp [recGet, Ne.symm hne]
        · rw [recGet_append_of_some hx]
    by_cases hb : (v != "" && jsTrim v != "") = true
    · rw [if_pos hb]
      have htr : jsTrim v ≠ "" := by
        rw [Bool.and_eq_true] at hb
        exact bne_iff_ne.mp hb.2
      by_cases hfg : g = f
      · subst hfg
        rw [recGet_recModify_self _ hgood, kept_single_nonblank htr, trunc_eq_take]
        have hcond : ((entries.any (fun e => e.1 == g)) || (g == g)) = true := by simp
        rw [if_pos hcond]
      · have hbf : (g == f) = false := beq_eq_false_iff_ne.mpr hfg
        rw [recGet_recModify_ne _ _ (Ne.symm hfg), hother (Ne.symm hfg), ih f,
          kept_single_ne hbf, List.append_nil, hbf, Bool.or_false]
    · rw [if_neg hb]
      have htr : jsTrim v = "" := by
        by_cases h1 : v = ""
        · rw [h1]
          rfl
        · by_contra h2
          exact hb (by simp [h1, h2])
      by_cases hfg : g = f
      · subst hfg
        rw [hgood, kept_single_blank htr, List.append_nil]
        have hcond : ((entries.any (fun e => e.1 == g)) || (g == g)) = true := by simp
        rw [if_pos hcond]
      · have hbf : (g == f) = false := beq_eq_false_iff_ne.mpr hfg
        rw [hother (Ne.symm hfg), ih f, kept_single_blank htr, List.append_nil,
          hbf, Bool.or_false]

lemma sampleStep_bound (m : List (String × List String)) (e : String × String)
    (h : ∀ p ∈ m, ∀ v ∈ p.2, jsLen v ≤ 50) :
    ∀ p ∈ sampleStep m e, ∀ v ∈ p.2, jsLen v ≤ 50 := by
  obtain ⟨g, val⟩ := e
  simp only [sampleStep]
  have hm1 : ∀ p ∈ (if recHas m g then m else m ++ [(g, [])]), ∀ v ∈ p.2, jsLen v ≤ 50 := by
    by_cases hh : recHas m g = true
    · rw [if_pos hh]
      exact h
    · rw [if_neg hh]
      intro p hp
      rcases List.mem_append.mp hp with hp | hp
      · exact h p hp
      · simp only [List.mem_singleton] at hp
        subst hp
        simp
  by_cases hb : (val != "" && jsTrim val != "") = true
  · rw [if_pos hb]
    intro p hp
    rcases mem_recModify hp with hp' | ⟨l, hl, rfl⟩
    · exact hm1 p hp'
    · intro v hv
      rcases List.mem_append.mp hv with hv | hv
      · exact hm1 _ hl v hv
      · simp only [List.mem_singleton] at hv
        subst hv
        by_cases hlen : decide (jsLen val > 50) = true
        · rw [if_pos hlen]
          show (jsTake val 50).data.length ≤ 50
          rw [jsTake]
          simp [List.length_take]
        · rw [if_neg hlen]
          have h2 : ¬ jsLen val > 50 := by simpa using hlen
          exact Nat.le_of_not_lt h2
  · rw [if_neg hb]
    exact hm1

lemma getFieldSamples_bound (cards : List AnkiCard) :
    ∀ p ∈ getFieldSamples cards, ∀ v ∈ p.2, jsLen v ≤ 50 := by
  rw [getFieldSamples_eq_flatMap]
  suffices h : ∀ (es : List (String × String)) (m : List (String × List String)),
      (∀ p ∈ m, ∀ v ∈ p.2, jsLen v ≤ 50) →
      ∀ p ∈ es.foldl sampleStep m, ∀ v ∈ p.2, jsLen v ≤ 50 by
    exact h _ [] (by simp)
  intro es
  induction es with
  | nil => intro m h; exact h
  | cons e rest ih =>
    intro m h
    rw [List.foldl_cons]
    exact ih _ (sampleStep_bound m e h)

/-- C8.  For every list of sampled records, the field-sample aggregation is
characterized field-by-field by `keptSamples`: the kept list for a field is
every declared value of it across the records in order, blank (empty or
whitespace-only) values omitted, each value cut to exactly its first 50
characters (`jsTake · 50`); every stored sample has length at most 50; and a
field appears in the sample set — even with an empty list when all its
values are blank — exactly when some record declared that field name. -/
theorem getFieldSamples_characterization (cards : List AnkiCard) :
    (∀ f, recGet (getFieldSamples cards) f =
      if (cards.flatMap (fun c => c.fields)).any (fun e => e.1 == f) then
        some (keptSamples (cards.flatMap (fun c => c.fields)) f)
      else none) ∧
    (∀ p ∈ getFieldSamples cards, ∀ v ∈ p.2, jsLen v ≤ 50) ∧
    (∀ f, (∃ p ∈ getFieldSamples cards, p.1 = f) ↔
      (cards.flatMap (fun c => c.fields)).any (fun e => e.1 == f) = true) := by
  have hget : ∀ f, recGet (getFieldSamples cards) f =
      if (cards.flatMap (fun c => c.fields)).any (fun e => e.1 == f) then
        some (keptSamples (cards.flatMap (fun c => c.fields)) f)
      else none := by
    intro f
    rw [getFieldSamples_eq_flatMap]
    exact sampleFold_get _ f
  refine ⟨hget, getFieldSamples_bound cards, fun f => ⟨?_, ?_⟩⟩
  · rintro ⟨p, hp, rfl⟩
    by_cases hany : (cards.flatMap (fun c => c.fields)).any (fun e => e.1 == p.1) = true
    · exact hany
    · exfalso
      have hnone : recGet (getFieldSamples cards) p.1 = none := by
        rw [hget p.1, if_neg hany]
      exact (recGet_eq_none_iff _ _).mp hnone p hp rfl
  · intro hany
    have hsome : recGet (getFieldSamples cards) f =
        some (keptSamples (cards.flatMap (fun c => c.fields)) f) := by
      rw [hget f, if_pos hany]
    exact ⟨(f, keptSamples (cards.flatMap (fun c => c.fields)) f), recGet_mem hsome, rfl⟩

end AnkiKashikoi
